import Mathlib

/-!
Verification of the enigma one-shot secret-sharing service (package db, web).

Strings are modelled as lists of natural numbers (their bytes); Go byte
slices and strings both become `Bytes`.  The AES block permutation of
crypto/aes is modelled as a parameter `E : Bytes → Bytes → Bytes`
(derived key → 16-byte block → 16-byte block); CFB mode, hex framing,
key derivation, the SHA-512 digest, the redis store primitives and the
repository operations are all defined concretely below, following the
source of the repository.
-/

namespace Enigma

/-- Byte strings: Go strings and byte slices. -/
abbrev Bytes := List Nat

/-! ## Hex framing (encoding/hex) -/

/-- Lower-case hex digit for a nibble, as an ASCII code
(encoding/hex uses the alphabet 0123456789abcdef). -/
def hexDigitChar (n : Nat) : Nat := if n < 10 then 48 + n else 87 + n

/-- hex.EncodeToString: two lower-case hex digits per byte. -/
def hexEncode (b : Bytes) : Bytes :=
  b.flatMap (fun x => [hexDigitChar (x / 16), hexDigitChar (x % 16)])

/-- Value of a hex digit; hex.DecodeString accepts 0-9, a-f and A-F. -/
def hexDigitVal (c : Nat) : Option Nat :=
  if 48 ≤ c ∧ c ≤ 57 then some (c - 48)
  else if 97 ≤ c ∧ c ≤ 102 then some (c - 87)
  else if 65 ≤ c ∧ c ≤ 70 then some (c - 55)
  else none

/-- hex.DecodeString: fails on odd length or on a non-hex character. -/
def hexDecode : Bytes → Option Bytes
  | [] => some []
  | [_] => none
  | a :: b :: rest =>
    match hexDigitVal a, hexDigitVal b, hexDecode rest with
    | some x, some y, some r => some ((16 * x + y) :: r)
    | _, _, _ => none

theorem hexDigitVal_hexDigitChar (n : Nat) (h : n < 16) :
    hexDigitVal (hexDigitChar n) = some n := by
  interval_cases n <;> rfl

/-- Decoding inverts encoding on genuine byte strings. -/
theorem hexDecode_hexEncode (b : Bytes) (hb : ∀ x ∈ b, x < 256) :
    hexDecode (hexEncode b) = some b := by
  induction b with
  | nil => rfl
  | cons x r ih =>
    have hx : x < 256 := hb x (List.mem_cons_self x r)
    have hr : hexDecode (hexEncode r) = some r :=
      ih (fun y hy => hb y (List.mem_cons_of_mem x hy))
    have h1 : x / 16 < 16 := by omega
    have h2 : x % 16 < 16 := by omega
    have hx' : 16 * (x / 16) + x % 16 = x := Nat.div_add_mod x 16
    simp only [hexEncode, List.flatMap_cons] at *
    simp [hexDecode, hexDigitVal_hexDigitChar _ h1,
      hexDigitVal_hexDigitChar _ h2, hr, hx']

theorem hexEncode_length (b : Bytes) : (hexEncode b).length = 2 * b.length := by
  induction b with
  | nil => rfl
  | cons x r ih => simp [hexEncode, List.flatMap_cons] at *; omega

/-- Every character of an encoded string is a lower-case hex digit. -/
theorem hexEncode_chars (b : Bytes) (hb : ∀ x ∈ b, x < 256) :
    ∀ c ∈ hexEncode b, (48 ≤ c ∧ c ≤ 57) ∨ (97 ≤ c ∧ c ≤ 102) := by
  induction b with
  | nil => simp [hexEncode]
  | cons x r ih =>
    have hx : x < 256 := hb x (List.mem_cons_self x r)
    intro c hc
    simp only [hexEncode, List.flatMap_cons, List.mem_append, List.mem_cons,
      List.not_mem_nil, or_false] at hc
    rcases hc with (rfl | rfl) | hc
    · unfold hexDigitChar; split <;> omega
    · unfold hexDigitChar; split <;> omega
    · exact ih (fun y hy => hb y (List.mem_cons_of_mem x hy)) c hc

/-! ## Key derivation: Item.cipherKey -/

/-- Item.cipherKey: if the password is empty the service key is used
directly; otherwise each index below the password length takes the
password byte, the rest keep the service-key byte. -/
def cipherKey (password skey : Bytes) : Bytes :=
  if password = [] then skey
  else (List.range skey.length).map
    (fun i => if i < password.length then password.getD i 0 else skey.getD i 0)

theorem cipherKey_length (password skey : Bytes) :
    (cipherKey password skey).length = skey.length := by
  unfold cipherKey
  split <;> simp

/-- C4: the derived AES key equals the service key for an empty password,
and otherwise equals the service key with its first min(|password|, 32)
bytes replaced by the password bytes, the remaining bytes unchanged. -/
theorem cipherKey_spec (password skey : Bytes) (h32 : skey.length = 32) :
    (password = [] → cipherKey password skey = skey) ∧
    (password ≠ [] →
      cipherKey password skey =
        password.take (min password.length 32) ++
          skey.drop (min password.length 32)) := by
  constructor
  · intro h; simp [cipherKey, h]
  · intro h
    unfold cipherKey
    rw [if_neg h]
    apply List.ext_getElem
    · simp [h32]
    · intro i h1 h2
      have hi32 : i < 32 := by
        have := h1
        simp [h32] at this
        omega
      rw [List.getElem_map, List.getElem_range]
      by_cases hlt : i < min password.length 32
      · have hip : i < password.length := by omega
        rw [if_pos hip, List.getElem_append_left (by simp; omega),
          List.getElem_take]
        rw [List.getD_eq_getElem?_getD, List.getElem?_eq_getElem hip]
        rfl
      · have hip : ¬ i < password.length := by omega
        have hsk : i < skey.length := by omega
        rw [if_neg hip, List.getElem_append_right (by simp; omega),
          List.getElem_drop]
        rw [List.getD_eq_getElem?_getD, List.getElem?_eq_getElem hsk]
        simp only [Option.getD_some, List.length_take]
        have hidx : min password.length 32 +
            (i - min (min password.length 32) password.length) = i := by omega
        simp only [hidx]

/-! ## CFB mode (crypto/cipher) over an abstract block permutation -/

/-- Byte-wise xor of two strings (truncating to the shorter). -/
def xorBytes (a b : Bytes) : Bytes := List.zipWith (fun x y => x ^^^ y) a b

/-- CFB encryption keystream chaining: each 16-byte ciphertext block is
the xor of the plaintext block with the encryption of the previous
ciphertext block (the IV for the first); the fuel argument bounds the
number of blocks and is instantiated with the plaintext length. -/
def cfbEncAux (E : Bytes → Bytes) : Nat → Bytes → Bytes → Bytes
  | 0, _, _ => []
  | f + 1, reg, p =>
    if p = [] then []
    else
      let c := xorBytes (p.take 16) (E reg)
      c ++ cfbEncAux E f c (p.drop 16)

/-- CFB decryption: xor each ciphertext block with the encryption of the
previous ciphertext block (the IV for the first). -/
def cfbDecAux (E : Bytes → Bytes) : Nat → Bytes → Bytes → Bytes
  | 0, _, _ => []
  | f + 1, reg, c =>
    if c = [] then []
    else xorBytes (c.take 16) (E reg) ++ cfbDecAux E f (c.take 16) (c.drop 16)

theorem xorBytes_length (a b : Bytes) :
    (xorBytes a b).length = min a.length b.length := by
  simp [xorBytes]

theorem xorBytes_cancel (a k : Bytes) (h : a.length ≤ k.length) :
    xorBytes (xorBytes a k) k = a := by
  induction a generalizing k with
  | nil => rfl
  | cons x xs ih =>
    cases k with
    | nil => simp at h
    | cons y ys =>
      simp only [xorBytes, List.zipWith_cons_cons] at *
      rw [Nat.xor_cancel_right y x, ih ys (by simpa using h)]

theorem cfbEncAux_nil (E : Bytes → Bytes) (f : Nat) (reg : Bytes) :
    cfbEncAux E f reg [] = [] := by
  cases f <;> simp [cfbEncAux]

theorem cfbDecAux_nil (E : Bytes → Bytes) (f : Nat) (reg : Bytes) :
    cfbDecAux E f reg [] = [] := by
  cases f <;> simp [cfbDecAux]

theorem cfbEncAux_length (E : Bytes → Bytes) (hE : ∀ b, (E b).length = 16) :
    ∀ (f : Nat) (reg p : Bytes), p.length ≤ f →
      (cfbEncAux E f reg p).length = p.length := by
  intro f
  induction f with
  | zero =>
    intro reg p hp
    have hnil : p = [] := List.length_eq_zero.mp (by omega)
    subst hnil
    rfl
  | succ f ih =>
    intro reg p hp
    by_cases hpn : p = []
    · simp [hpn, cfbEncAux]
    · have hp1 : 1 ≤ p.length := List.length_pos.mpr hpn
      simp only [cfbEncAux, if_neg hpn, List.length_append]
      rw [ih _ _ (by simp; omega)]
      rw [xorBytes_length, hE]
      simp
      omega

theorem xorBytes_bytes (a b : Bytes) (ha : ∀ x ∈ a, x < 256)
    (hb : ∀ x ∈ b, x < 256) : ∀ x ∈ xorBytes a b, x < 256 := by
  intro x hx
  rcases List.mem_iff_getElem.mp hx with ⟨i, hi, rfl⟩
  have hil : i < (xorBytes a b).length := hi
  rw [xorBytes_length] at hil
  simp only [xorBytes, List.getElem_zipWith]
  have hia : i < a.length := by omega
  have hib : i < b.length := by omega
  have h1 : a[i] < 2 ^ 8 := ha _ (List.getElem_mem _)
  have h2 : b[i] < 2 ^ 8 := hb _ (List.getElem_mem _)
  have h3 := Nat.xor_lt_two_pow h1 h2
  norm_num at h3 ⊢
  exact h3

theorem cfbEncAux_bytes (E : Bytes → Bytes) (hEb : ∀ b x, x ∈ E b → x < 256) :
    ∀ (f : Nat) (reg p : Bytes), (∀ x ∈ p, x < 256) →
      ∀ x ∈ cfbEncAux E f reg p, x < 256 := by
  intro f
  induction f with
  | zero => intro reg p hp x hx; simp [cfbEncAux] at hx
  | succ f ih =>
    intro reg p hp x hx
    by_cases hpn : p = []
    · simp [hpn, cfbEncAux] at hx
    · simp only [cfbEncAux, if_neg hpn, List.mem_append] at hx
      have hcb : ∀ y ∈ xorBytes (p.take 16) (E reg), y < 256 :=
        xorBytes_bytes _ _ (fun y hy => hp y (List.mem_of_mem_take hy))
          (hEb reg)
      rcases hx with hx | hx
      · exact hcb x hx
      · exact ih _ _ (fun y hy => hp y (List.mem_of_mem_drop hy)) x hx

/-- CFB decryption inverts CFB encryption (for a block function that
always produces 16-byte blocks, as AES does). -/
theorem cfb_roundtrip (E : Bytes → Bytes) (hE : ∀ b, (E b).length = 16) :
    ∀ (f : Nat) (p reg : Bytes), p.length ≤ f →
      cfbDecAux E f reg (cfbEncAux E f reg p) = p := by
  intro f
  induction f with
  | zero =>
    intro p reg hp
    have hnil : p = [] := List.length_eq_zero.mp (by omega)
    subst hnil
    rfl
  | succ f ih =>
    intro p reg hp
    by_cases hpn : p = []
    · simp [hpn, cfbEncAux, cfbDecAux]
    · have hp1 : 1 ≤ p.length := List.length_pos.mpr hpn
      simp only [cfbEncAux, if_neg hpn]
      have hcl : (xorBytes (p.take 16) (E reg)).length = min p.length 16 := by
        rw [xorBytes_length, hE]
        simp only [List.length_take]
        omega
      have hcn : xorBytes (p.take 16) (E reg) ≠ [] := by
        intro h0
        rw [h0] at hcl
        simp at hcl
        omega
      rcases le_or_lt p.length 16 with h16 | h16
      · have htk : p.take 16 = p := List.take_of_length_le h16
        have hdp : p.drop 16 = [] := List.drop_eq_nil_of_le h16
        rw [htk, hdp, cfbEncAux_nil, List.append_nil]
        have hcn' : xorBytes p (E reg) ≠ [] := by rw [← htk]; exact hcn
        simp only [cfbDecAux, if_neg hcn']
        have hc16 : (xorBytes p (E reg)).length ≤ 16 := by
          rw [xorBytes_length, hE]; omega
        rw [List.take_of_length_le hc16, List.drop_eq_nil_of_le hc16,
          cfbDecAux_nil, List.append_nil]
        exact xorBytes_cancel p (E reg) (by rw [hE]; omega)
      · have hcl16 : (xorBytes (p.take 16) (E reg)).length = 16 := by omega
        have happ : xorBytes (p.take 16) (E reg) ++
            cfbEncAux E f (xorBytes (p.take 16) (E reg)) (p.drop 16) ≠ [] := by
          simp [hcn]
        simp only [cfbDecAux, if_neg happ]
        rw [List.take_append_of_le_length (by omega),
          List.take_of_length_le (by omega),
          List.drop_append_of_le_length (by omega),
          List.drop_eq_nil_of_le (by omega), List.nil_append]
        rw [xorBytes_cancel _ (E reg) (by rw [hE]; simp)]
        rw [ih (p.drop 16) _ (by simp; omega)]
        exact List.take_append_drop 16 p

/-! ## Item.encrypt / Item.decrypt -/

/-- Error cases of the codec (package db). -/
inductive CodecErr where
  | emptyKey | emptyPlain | cipherInit | emptyCipher | badHex | shortCipher
deriving DecidableEq

/-- aes.NewCipher succeeds exactly on 16-, 24- or 32-byte keys. -/
def aesKeyOk (k : Bytes) : Bool :=
  (k.length == 16) || (k.length == 24) || (k.length == 32)

/-- Item.encrypt: reject empty service key and empty plaintext, derive
the key, build IV-prefixed CFB ciphertext and hex-encode it.  The IV
(sampled from crypto/rand in the source) is a parameter.  On
aes.NewCipher failure the source returns a nil error without setting
eContent; that path is modelled as success carrying no ciphertext
(`.ok none`). -/
def encryptItem (E : Bytes → Bytes → Bytes) (skey password content iv : Bytes) :
    Except CodecErr (Option Bytes) :=
  if skey = [] then .error .emptyKey
  else if content = [] then .error .emptyPlain
  else
    let key := cipherKey password skey
    if aesKeyOk key then
      .ok (some (hexEncode (iv ++ cfbEncAux (E key) content.length iv content)))
    else .ok none

/-- Item.decrypt: reject empty ciphertext, hex-decode (failing on
malformed hex), reject fewer than 16 bytes, split off the IV and CFB
decrypt the remainder. -/
def decryptItem (E : Bytes → Bytes → Bytes) (skey password eContent : Bytes) :
    Except CodecErr Bytes :=
  if eContent = [] then .error .emptyCipher
  else
    match hexDecode eContent with
    | none => .error .badHex
    | some ct =>
      if ct.length < 16 then .error .shortCipher
      else
        let key := cipherKey password skey
        if aesKeyOk key then
          .ok (cfbDecAux (E key) (ct.drop 16).length (ct.take 16) (ct.drop 16))
        else .error .cipherInit

/-- A degenerate concrete block function used for witnesses: it maps
every block to sixteen zero bytes. -/
def blockZero : Bytes → Bytes → Bytes := fun _ _ => List.replicate 16 0

theorem encryptItem_ok (E : Bytes → Bytes → Bytes)
    (skey password content iv : Bytes) (hsk : skey ≠ []) (hc : content ≠ [])
    (hok : aesKeyOk (cipherKey password skey) = true) :
    encryptItem E skey password content iv =
      .ok (some (hexEncode (iv ++
        cfbEncAux (E (cipherKey password skey)) content.length iv content))) := by
  unfold encryptItem
  rw [if_neg hsk, if_neg hc]
  simp [hok]

theorem decryptItem_decoded (E : Bytes → Bytes → Bytes)
    (skey password eContent ct : Bytes) (hne : eContent ≠ [])
    (hdec : hexDecode eContent = some ct) :
    decryptItem E skey password eContent =
      if ct.length < 16 then .error .shortCipher
      else if aesKeyOk (cipherKey password skey) then
        .ok (cfbDecAux (E (cipherKey password skey))
          (ct.drop 16).length (ct.take 16) (ct.drop 16))
      else .error .cipherInit := by
  unfold decryptItem
  rw [if_neg hne, hdec]

/-- C2: for every non-empty plaintext, 32-byte service key and password
(empty included), decrypting the output of encrypt with the same key and
password returns exactly the plaintext.  The statement is parametric in
the AES block permutation E; byte-string hypotheses say that all inputs
are genuine bytes and that E produces 16-byte blocks of bytes. -/
theorem codec_roundtrip (E : Bytes → Bytes → Bytes)
    (hE : ∀ k b, (E k b).length = 16) (hEb : ∀ k b x, x ∈ E k b → x < 256)
    (skey : Bytes) (h32 : skey.length = 32)
    (content : Bytes) (hc : content ≠ []) (hcb : ∀ x ∈ content, x < 256)
    (password : Bytes) (iv : Bytes) (hiv : iv.length = 16)
    (hivb : ∀ x ∈ iv, x < 256) :
    ∃ ct, encryptItem E skey password content iv = .ok (some ct) ∧
      decryptItem E skey password ct = .ok content := by
  have hsk : skey ≠ [] := by
    intro h0
    rw [h0] at h32
    simp at h32
  have hkl : (cipherKey password skey).length = 32 := by
    rw [cipherKey_length, h32]
  have hok : aesKeyOk (cipherKey password skey) = true := by
    simp [aesKeyOk, hkl]
  set key := cipherKey password skey with hkey
  set body := cfbEncAux (E key) content.length iv content with hbody
  have hbl : body.length = content.length :=
    cfbEncAux_length (E key) (hE key) content.length iv content le_rfl
  have hctb : ∀ x ∈ iv ++ body, x < 256 := by
    intro x hx
    rcases List.mem_append.mp hx with hx | hx
    · exact hivb x hx
    · exact cfbEncAux_bytes (E key) (hEb key) content.length iv content hcb x hx
  refine ⟨hexEncode (iv ++ body), ?_, ?_⟩
  · rw [encryptItem_ok E skey password content iv hsk hc hok]
  · have hlen : (iv ++ body).length = 16 + content.length := by
      simp [hiv, hbl]
    have hne : hexEncode (iv ++ body) ≠ [] := by
      intro h0
      have hl2 := hexEncode_length (iv ++ body)
      rw [h0, hlen] at hl2
      simp only [List.length_nil] at hl2
      omega
    rw [decryptItem_decoded E skey password _ _ hne (hexDecode_hexEncode _ hctb)]
    have hnlt : ¬ (iv ++ body).length < 16 := by omega
    rw [if_neg hnlt, if_pos hok]
    have htk : (iv ++ body).take 16 = iv := by
      rw [← hiv]
      exact List.take_left iv body
    have hdr : (iv ++ body).drop 16 = body := by
      rw [← hiv]
      exact List.drop_left iv body
    rw [htk, hdr, hbl, hbody]
    rw [cfb_roundtrip (E key) (hE key) content.length content iv le_rfl]

/-- Witness for the round trip at a concrete instance. -/
theorem codec_roundtrip_witness :
    ∃ ct, encryptItem blockZero (List.replicate 32 0) [] [104, 105]
        (List.replicate 16 1) = .ok (some ct) ∧
      decryptItem blockZero (List.replicate 32 0) [] ct = .ok [104, 105] :=
  codec_roundtrip blockZero (fun _ _ => by simp [blockZero])
    (fun _ _ x hx => by
      simp [blockZero] at hx
      omega)
    (List.replicate 32 0) (by simp) [104, 105] (by simp) (by decide)
    [] (List.replicate 16 1) (by simp)
    (fun x hx => by
      simp at hx
      omega)

/-- C3: the source's Item.encrypt returns a nil error when aes.NewCipher
fails (a five-byte service key is non-empty but an invalid AES key
size), so cipher-construction failure is reported as success, contrary
to the specified CipherInit error; the other error cases of the claim do
hold, evaluated here: empty service key, empty plaintext, malformed hex
and a ciphertext shorter than 16 bytes are all rejected. -/
theorem encrypt_cipher_init_reported_as_success :
    encryptItem blockZero [1, 2, 3, 4, 5] [] [9] (List.replicate 16 0) =
        .ok none ∧
    encryptItem blockZero [] [] [9] (List.replicate 16 0) =
        .error .emptyKey ∧
    encryptItem blockZero (List.replicate 32 0) [] [] (List.replicate 16 0) =
        .error .emptyPlain ∧
    decryptItem blockZero (List.replicate 32 0) [] [120] = .error .badHex ∧
    decryptItem blockZero (List.replicate 32 0) [] (hexEncode [1, 2, 3]) =
        .error .shortCipher := by
  refine ⟨rfl, rfl, rfl, rfl, rfl⟩

/-- Witness for the key-derivation description at a concrete instance. -/
theorem cipherKey_spec_witness :
    cipherKey [] (List.replicate 32 5) = List.replicate 32 5 ∧
    cipherKey [1, 2] (List.replicate 32 5) =
      ([1, 2] : Bytes).take (min ([1, 2] : Bytes).length 32) ++
        (List.replicate 32 5 : Bytes).drop (min ([1, 2] : Bytes).length 32) :=
  ⟨(cipherKey_spec [] (List.replicate 32 5) (by decide)).1 rfl,
    (cipherKey_spec [1, 2] (List.replicate 32 5) (by decide)).2 (by decide)⟩

/-! ## The single-key redis store view

A record lives under one key; its hash carries a `content` field (absent
on phantom keys recreated by HINCRBY) and a `times` field.  The store
for that key is either absent (`none`) or such a hash. -/

/-- One redis hash: optional content field, integer times field. -/
structure RHash where
  content : Option Bytes
  times : Int
deriving DecidableEq

/-- The state of the store at a single key. -/
abbrev Store := Option RHash

/-- HINCRBY key times -1: creates the key with times = -1 when absent
(the phantom-key behaviour), otherwise decrements; returns the new
value together with the new store state. -/
def hincrby : Store → Int × Store
  | none => (-1, some ⟨none, -1⟩)
  | some h => (h.times - 1, some ⟨h.content, h.times - 1⟩)

/-- HEXISTS key content (Item.Exists). -/
def hexistsContent : Store → Bool
  | none => false
  | some h => h.content.isSome

/-- HGET key content; a nil reply (absent key or absent field) makes
redis.String fail in the source. -/
def hgetContent : Store → Option Bytes
  | none => none
  | some _h => _h.content

/-- DEL key: reports whether a key was removed. -/
def del : Store → Bool × Store
  | none => (false, none)
  | some _ => (true, none)

/-! ## Item.Read, sequential embedding (one call, error-free transport)

The embedding records the result, the final store state and the trace of
store commands the call issued. -/

/-- Store commands issued by Item.Read. -/
inductive Op where
  | incrOp | existsOp | getOp | delOp
deriving DecidableEq

/-- Result of one Item.Read call: `delivered` is the boolean returned,
`failed` is whether a non-nil error was returned, `content` the
decrypted plaintext (when delivered). -/
structure ReadRes where
  delivered : Bool
  failed : Bool
  content : Option Bytes
  store : Store
  ops : List Op
deriving DecidableEq

/-- Item.Read on the store view of `key`: empty key short-circuits;
HINCRBY is the race arbiter; a negative counter takes the repair path
(Exists, then DEL exactly when the record is absent); a non-negative
counter reads the content (failing on a nil reply), deletes the record
when the counter reached zero, and decrypts. -/
def readOnce (E : Bytes → Bytes → Bytes) (key password skey : Bytes)
    (s : Store) : ReadRes :=
  if key = [] then ⟨false, false, none, s, []⟩
  else
    let ts := hincrby s
    if ts.1 < 0 then
      if hexistsContent ts.2 then ⟨false, false, none, ts.2, [.incrOp, .existsOp]⟩
      else ⟨false, false, none, (del ts.2).2, [.incrOp, .existsOp, .delOp]⟩
    else
      match hgetContent ts.2 with
      | none => ⟨false, true, none, ts.2, [.incrOp, .getOp]⟩
      | some ct =>
        if ts.1 = 0 then
          let ds := del ts.2
          if ds.1 then
            match decryptItem E skey password ct with
            | .ok p => ⟨true, false, some p, ds.2, [.incrOp, .getOp, .delOp]⟩
            | .error _ => ⟨false, true, none, ds.2, [.incrOp, .getOp, .delOp]⟩
          else ⟨false, true, none, ds.2, [.incrOp, .getOp, .delOp]⟩
        else
          match decryptItem E skey password ct with
          | .ok p => ⟨true, false, some p, ts.2, [.incrOp, .getOp]⟩
          | .error _ => ⟨false, true, none, ts.2, [.incrOp, .getOp]⟩

/-- C5: Read never delivers without a quota.  An empty key returns
(false, nil) touching nothing; a negative HINCRBY result returns
(false, nil) with no plaintext, and the trace contains a DEL exactly
when Exists reported the record absent. -/
theorem readOnce_no_quota (E : Bytes → Bytes → Bytes)
    (key password skey : Bytes) (s : Store) :
    (key = [] → readOnce E key password skey s =
      ⟨false, false, none, s, []⟩) ∧
    (key ≠ [] → (hincrby s).1 < 0 →
      (readOnce E key password skey s).delivered = false ∧
      (readOnce E key password skey s).failed = false ∧
      (readOnce E key password skey s).content = none ∧
      (Op.delOp ∈ (readOnce E key password skey s).ops ↔
        hexistsContent (hincrby s).2 = false)) := by
  constructor
  · intro h
    simp [readOnce, h]
  · intro hk hneg
    unfold readOnce
    rw [if_neg hk]
    simp only [if_pos hneg]
    by_cases hex : hexistsContent (hincrby s).2
    · simp [hex]
    · simp [hex]

/-- Witness for the no-quota behaviour of Read at concrete inputs. -/
theorem readOnce_no_quota_witness :
    readOnce blockZero [] [] (List.replicate 32 0) (some ⟨some [1], 3⟩) =
      ⟨false, false, none, some ⟨some [1], 3⟩, []⟩ ∧
    (readOnce blockZero [7] [] (List.replicate 32 0)
        (some ⟨some [1], 0⟩)).delivered = false ∧
    (Op.delOp ∈ (readOnce blockZero [7] [] (List.replicate 32 0)
        (some ⟨some [1], 0⟩)).ops ↔
      hexistsContent (hincrby (some ⟨some [1], 0⟩)).2 = false) := by
  refine ⟨(readOnce_no_quota blockZero [] [] (List.replicate 32 0)
    (some ⟨some [1], 3⟩)).1 rfl, ?_, ?_⟩
  · exact ((readOnce_no_quota blockZero [7] [] (List.replicate 32 0)
      (some ⟨some [1], 0⟩)).2 (by decide) (by decide)).1
  · exact ((readOnce_no_quota blockZero [7] [] (List.replicate 32 0)
      (some ⟨some [1], 0⟩)).2 (by decide) (by decide)).2.2.2

theorem hincrby_shape (s : Store) (t : Int) (s₁ : Store)
    (hi : hincrby s = (t, s₁)) (ht : 0 ≤ t) : ∃ c, s₁ = some ⟨c, t⟩ := by
  cases s with
  | none =>
    simp [hincrby] at hi
    omega
  | some h0 =>
    simp [hincrby] at hi
    exact ⟨h0.content, by rw [← hi.2, hi.1]⟩

/-- C10: Read is not atomic on error.  When HINCRBY has returned a
non-negative counter and the call nevertheless reports an error (nil
HGET reply, or decryption failure; a failed final DEL cannot occur
without concurrent interference since the decremented key exists), the
decrement is not rolled back: no plaintext is delivered, the times field
stays at the decremented value t, and when t = 0 with the content read
the record has already been deleted. -/
theorem readOnce_error_keeps_decrement (E : Bytes → Bytes → Bytes)
    (key password skey : Bytes) (s : Store) (t : Int) (s₁ : Store)
    (hk : key ≠ []) (hi : hincrby s = (t, s₁)) (ht : 0 ≤ t)
    (he : (readOnce E key password skey s).failed = true) :
    (readOnce E key password skey s).delivered = false ∧
    (readOnce E key password skey s).content = none ∧
    (readOnce E key password skey s).store =
      (if t = 0 ∧ (hgetContent s₁).isSome then none else s₁) ∧
    ∃ c, s₁ = some ⟨c, t⟩ := by
  obtain ⟨c, rfl⟩ := hincrby_shape s t s₁ hi ht
  have hnlt : ¬ t < 0 := by omega
  cases c with
  | none =>
    refine ⟨?_, ?_, ?_, ⟨none, rfl⟩⟩ <;>
      simp [readOnce, hi, hk, hnlt, hgetContent]
  | some ct =>
    cases hd : decryptItem E skey password ct with
    | ok p =>
      exfalso
      by_cases h0 : t = 0
      · subst h0
        simp [readOnce, hi, hk, hnlt, hgetContent, del, hd] at he
      · simp [readOnce, hi, hk, hnlt, hgetContent, h0, hd] at he
    | error e =>
      by_cases h0 : t = 0
      · subst h0
        refine ⟨?_, ?_, ?_, ⟨some ct, rfl⟩⟩ <;>
          simp [readOnce, hi, hk, hnlt, hgetContent, del, hd]
      · refine ⟨?_, ?_, ?_, ⟨some ct, rfl⟩⟩ <;>
          simp [readOnce, hi, hk, hnlt, hgetContent, del, hd, h0]

/-- Witness: a stored record whose content field is not valid hex makes
the decryption step fail after the quota was consumed. -/
theorem readOnce_error_keeps_decrement_witness :
    (readOnce blockZero [7] [] (List.replicate 32 0)
        (some ⟨some [1, 2], 5⟩)).delivered = false ∧
    (readOnce blockZero [7] [] (List.replicate 32 0)
        (some ⟨some [1, 2], 5⟩)).content = none ∧
    (readOnce blockZero [7] [] (List.replicate 32 0)
        (some ⟨some [1, 2], 5⟩)).store =
      (if (4 : Int) = 0 ∧ (hgetContent (some ⟨some [1, 2], 4⟩)).isSome
        then none else some ⟨some [1, 2], 4⟩) ∧
    ∃ c, (some ⟨some [1, 2], (4 : Int)⟩ : Store) = some ⟨c, 4⟩ :=
  readOnce_error_keeps_decrement blockZero [7] [] (List.replicate 32 0)
    (some ⟨some [1, 2], 5⟩) 4 (some ⟨some [1, 2], 4⟩)
    (by decide) rfl (by decide) rfl

/-! ## Key generation (generateKey / getKey) -/

/-- KeyLen: number of random bytes per candidate key. -/
def KeyLen : Nat := 64

/-- maxCollisions: number of allowed attempts. -/
def maxCollisions : Nat := 16

/-- getKey: hex-encode one random draw (the crypto/rand draw is a
parameter of the embedding). -/
def getKey (draw : Bytes) : Bytes := hexEncode draw

/-- The generateKey loop: up to `fuel` attempts starting at draw index
i, returning the first candidate not present in the store, none when
every attempt collides. -/
def generateKeyAux (ex : Bytes → Bool) (draws : Nat → Bytes) :
    Nat → Nat → Option Bytes
  | 0, _ => none
  | f + 1, i =>
    if ex (getKey (draws i)) then generateKeyAux ex draws f (i + 1)
    else some (getKey (draws i))

/-- generateKey: 16 attempts from index 0. -/
def generateKey (ex : Bytes → Bool) (draws : Nat → Bytes) : Option Bytes :=
  generateKeyAux ex draws maxCollisions 0

theorem generateKeyAux_all_collide (ex : Bytes → Bool) (draws : Nat → Bytes) :
    ∀ (f i : Nat), (∀ j < f, ex (getKey (draws (i + j))) = true) →
      generateKeyAux ex draws f i = none := by
  intro f
  induction f with
  | zero => intro i _; rfl
  | succ f ih =>
    intro i h
    have h0 : ex (getKey (draws i)) = true := by
      have h1 := h 0 (by omega)
      simpa using h1
    simp only [generateKeyAux, h0, if_true]
    refine ih (i + 1) (fun j hj => ?_)
    have h2 := h (j + 1) (by omega)
    rw [show i + (j + 1) = i + 1 + j by omega] at h2
    exact h2

theorem generateKeyAux_first (ex : Bytes → Bool) (draws : Nat → Bytes) :
    ∀ (f j i : Nat), j < f → ex (getKey (draws (i + j))) = false →
      (∀ k < j, ex (getKey (draws (i + k))) = true) →
      generateKeyAux ex draws f i = some (getKey (draws (i + j))) := by
  intro f
  induction f with
  | zero => intro j i hj; omega
  | succ f ih =>
    intro j i hj hx hbefore
    cases j with
    | zero =>
      simp only [Nat.add_zero] at hx
      simp [generateKeyAux, hx]
    | succ j =>
      have h0 : ex (getKey (draws i)) = true := by
        have h1 := hbefore 0 (by omega)
        simpa using h1
      simp only [generateKeyAux, h0, if_true]
      rw [show i + (j + 1) = i + 1 + j by omega]
      refine ih j (i + 1) (by omega) ?_ ?_
      · rw [show i + 1 + j = i + (j + 1) by omega]
        exact hx
      · intro k hk
        rw [show i + 1 + k = i + (k + 1) by omega]
        exact hbefore (k + 1) (by omega)

/-- C7: key generation hex-encodes 64 random bytes into a 128-character
lowercase-hex candidate, probes the store, returns the first candidate
that is absent, and fails (none) when all 16 attempts collide. -/
theorem generateKey_spec (ex : Bytes → Bool) (draws : Nat → Bytes)
    (hlen : ∀ i, (draws i).length = KeyLen)
    (hbytes : ∀ i, ∀ x ∈ draws i, x < 256) :
    ((∀ i < maxCollisions, ex (getKey (draws i)) = true) →
      generateKey ex draws = none) ∧
    (∀ j, j < maxCollisions → ex (getKey (draws j)) = false →
      (∀ i < j, ex (getKey (draws i)) = true) →
      generateKey ex draws = some (getKey (draws j)) ∧
      (getKey (draws j)).length = 2 * KeyLen ∧
      (∀ c ∈ getKey (draws j), (48 ≤ c ∧ c ≤ 57) ∨ (97 ≤ c ∧ c ≤ 102))) := by
  constructor
  · intro h
    exact generateKeyAux_all_collide ex draws maxCollisions 0
      (fun j hj => by simpa using h j hj)
  · intro j hj hx hbefore
    refine ⟨?_, ?_, ?_⟩
    · have h1 := generateKeyAux_first ex draws maxCollisions j 0 hj
        (by simpa using hx) (fun k hk => by simpa using hbefore k hk)
      simpa [generateKey] using h1
    · unfold getKey
      rw [hexEncode_length, hlen j]
    · exact hexEncode_chars _ (hbytes j)

/-- Witness for key generation: an empty store accepts the first draw. -/
theorem generateKey_spec_witness :
    generateKey (fun _ => false) (fun _ => List.replicate 64 3) =
      some (getKey (List.replicate 64 3)) ∧
    (getKey ((fun _ : Nat => List.replicate 64 3) 0)).length = 2 * KeyLen :=
  have h := (generateKey_spec (fun _ => false) (fun _ => List.replicate 64 3)
    (fun _ => by simp [KeyLen]) (fun _ x hx => by
      simp at hx
      omega)).2 0 (by decide) rfl (fun i hi => by omega)
  ⟨h.1, h.2.1⟩

/-! ## Request validation (db.New / validateRange, strconv.Atoi) -/

/-- Decimal digit string value; fails on a non-digit. -/
def digitsValAux : Bytes → Nat → Option Nat
  | [], acc => some acc
  | c :: rest, acc =>
    if 48 ≤ c ∧ c ≤ 57 then digitsValAux rest (acc * 10 + (c - 48))
    else none

/-- strconv.Atoi: optional sign followed by at least one digit; the
64-bit range check is not modelled (inputs beyond maxTTL/maxTimes are
rejected by the range check either way). -/
def atoi (s : Bytes) : Option Int :=
  match s with
  | [] => none
  | 43 :: rest =>
    if rest = [] then none else (digitsValAux rest 0).map (fun n => (n : Int))
  | 45 :: rest =>
    if rest = [] then none else (digitsValAux rest 0).map (fun n => -(n : Int))
  | _ => (digitsValAux s 0).map (fun n => (n : Int))

/-- validateRange: parse and require 1 ≤ n ≤ max (none is the error). -/
def validateRange (value : Bytes) (mx : Int) : Option Int :=
  match atoi value with
  | none => none
  | some n => if n < 1 ∨ n > mx then none else some n

/-- A POST form: PostFormValue yields the empty string for a missing
field. -/
structure Form where
  content : Bytes
  ttl : Bytes
  times : Bytes
  password : Bytes

/-- The validated item built by db.New. -/
structure ItemV where
  Content : Bytes
  TTL : Int
  Times : Int
  Password : Bytes
deriving DecidableEq

/-- db.New: required content, required in-range ttl and times, optional
password; the embedding is pure — no store argument exists, reflecting
that validation performs no store write. -/
def NewItem (f : Form) (maxTTL maxTimes : Int) : Option ItemV :=
  if f.content = [] then none
  else if f.ttl = [] then none
  else
    match validateRange f.ttl maxTTL with
    | none => none
    | some ttl =>
      if f.times = [] then none
      else
        match validateRange f.times maxTimes with
        | none => none
        | some times => some ⟨f.content, ttl, times, f.password⟩

theorem validateRange_some (v : Bytes) (mx n : Int) :
    validateRange v mx = some n ↔ atoi v = some n ∧ 1 ≤ n ∧ n ≤ mx := by
  unfold validateRange
  cases atoi v with
  | none => simp
  | some k =>
    by_cases h : k < 1 ∨ k > mx
    · simp only [if_pos h]
      constructor
      · intro h2
        simp at h2
      · rintro ⟨h2, h3, h4⟩
        injection h2 with h2
        omega
    · simp only [if_neg h]
      constructor
      · intro h2
        injection h2 with h2
        subst h2
        exact ⟨rfl, by omega, by omega⟩
      · rintro ⟨h2, _, _⟩
        injection h2 with h2
        rw [h2]

/-- C8: validation accepts exactly when content is non-empty and both
ttl and times parse as decimal integers within [1, max]; on success the
item carries the submitted content and password verbatim and the parsed
bounds-checked numbers.  Failure of any rule yields none (the error),
and the embedding of New takes no store argument: no store write can
occur. -/
theorem newItem_spec (f : Form) (maxTTL maxTimes : Int) :
    (∀ item, NewItem f maxTTL maxTimes = some item →
      item.Content = f.content ∧ item.Password = f.password ∧
      atoi f.ttl = some item.TTL ∧ 1 ≤ item.TTL ∧ item.TTL ≤ maxTTL ∧
      atoi f.times = some item.Times ∧ 1 ≤ item.Times ∧
      item.Times ≤ maxTimes) ∧
    ((NewItem f maxTTL maxTimes).isSome = true ↔
      (f.content ≠ [] ∧
        (∃ t, atoi f.ttl = some t ∧ 1 ≤ t ∧ t ≤ maxTTL) ∧
        (∃ k, atoi f.times = some k ∧ 1 ≤ k ∧ k ≤ maxTimes))) := by
  by_cases h1 : f.content = []
  · constructor
    · intro item hitem
      simp [NewItem, h1] at hitem
    · simp [NewItem, h1]
  by_cases h2 : f.ttl = []
  · constructor
    · intro item hitem
      simp [NewItem, h1, h2] at hitem
    · simp only [NewItem, if_neg h1, if_pos h2]
      constructor
      · intro h0
        simp at h0
      · rintro ⟨_, ⟨t, hts2, _, _⟩, _⟩
        exfalso
        rw [h2] at hts2
        simp [atoi] at hts2
  cases hv : validateRange f.ttl maxTTL with
  | none =>
    constructor
    · intro item hitem
      simp [NewItem, h1, h2, hv] at hitem
    · simp only [NewItem, if_neg h1, if_neg h2, hv]
      constructor
      · intro h0
        simp at h0
      · rintro ⟨_, ⟨t, hts2, ht1, ht2⟩, _⟩
        exfalso
        have hvr := (validateRange_some f.ttl maxTTL t).mpr ⟨hts2, ht1, ht2⟩
        rw [hv] at hvr
        exact Option.noConfusion hvr
  | some ttl =>
    have hts := (validateRange_some f.ttl maxTTL ttl).mp hv
    by_cases h3 : f.times = []
    · constructor
      · intro item hitem
        simp [NewItem, h1, h2, hv, h3] at hitem
      · simp only [NewItem, if_neg h1, if_neg h2, hv, if_pos h3]
        constructor
        · intro h0
          simp at h0
        · rintro ⟨_, _, ⟨k, hks2, _, _⟩⟩
          exfalso
          rw [h3] at hks2
          simp [atoi] at hks2
    cases hw : validateRange f.times maxTimes with
    | none =>
      constructor
      · intro item hitem
        simp [NewItem, h1, h2, hv, h3, hw] at hitem
      · simp only [NewItem, if_neg h1, if_neg h2, hv, if_neg h3, hw]
        constructor
        · intro h0
          simp at h0
        · rintro ⟨_, _, ⟨k, hks2, hk1, hk2⟩⟩
          exfalso
          have hwr := (validateRange_some f.times maxTimes k).mpr ⟨hks2, hk1, hk2⟩
          rw [hw] at hwr
          exact Option.noConfusion hwr
    | some times =>
      have hks := (validateRange_some f.times maxTimes times).mp hw
      constructor
      · intro item hitem
        simp only [NewItem, if_neg h1, if_neg h2, hv, if_neg h3, hw] at hitem
        injection hitem with hitem
        subst hitem
        exact ⟨rfl, rfl, hts.1, hts.2.1, hts.2.2, hks.1, hks.2.1, hks.2.2⟩
      · simp only [NewItem, if_neg h1, if_neg h2, hv, if_neg h3, hw]
        simp only [Option.isSome_some, true_iff]
        exact ⟨h1, ⟨ttl, hts.1, hts.2.1, hts.2.2⟩,
          ⟨times, hks.1, hks.2.1, hks.2.2⟩⟩

/-- Witness for validation at concrete inputs: content "h", ttl "10",
times "3" against maxima 60 and 10. -/
theorem newItem_spec_witness :
    (NewItem ⟨[104], [49, 48], [51], []⟩ 60 10).isSome = true :=
  (newItem_spec ⟨[104], [49, 48], [51], []⟩ 60 10).2.mpr
    ⟨by decide, ⟨10, by decide, by decide, by decide⟩,
      ⟨3, by decide, by decide, by decide⟩⟩

/-! ## web.Read key gate -/

/-- strings.Trim: remove every leading and trailing character contained
in the cutset. -/
def goTrim (cut s : Bytes) : Bytes :=
  ((s.dropWhile (fun c => c ∈ cut)).reverse.dropWhile
    (fun c => c ∈ cut)).reverse

/-- Outcome of the read handler up to its Exists check: a 404 page or
proceeding with a syntactically valid key. -/
inductive ReadPage where
  | notFound
  | proceed (key : Bytes)
deriving DecidableEq

/-- Request.RequestURI of an origin-form request: the path followed by
`?query` when a query string is present (63 is the ASCII code of the
question mark). -/
def requestURI (path : Bytes) (query : Option Bytes) : Bytes :=
  path ++ (match query with | none => [] | some q => 63 :: q)

/-- web.Read up to the store: trim the RequestURI of slashes and
spaces, answer 404 when the trimmed string's length differs from
2·KeyLen, otherwise ask HEXISTS for the record (the second component
records the keys queried in the store) and answer 404 when absent. -/
def webRead (uri : Bytes) (ex : Bytes → Bool) : ReadPage × List Bytes :=
  let key := goTrim [47, 32] uri
  if key.length ≠ 2 * KeyLen then (.notFound, [])
  else if ex key then (.proceed key, [key]) else (.notFound, [key])

set_option maxRecDepth 4000 in
/-- C9 is false as stated: web.Read trims r.RequestURI, which contains
the query string, not the path.  A request for the path "/x" (trimmed
path length 1 ≠ 128) with a 126-character query string yields a trimmed
RequestURI of length 128, so the handler queries the store instead of
answering 404 without a store query. -/
theorem webRead_path_gate_refuted :
    ¬ (∀ (path : Bytes) (query : Option Bytes) (ex : Bytes → Bool),
        (goTrim [47, 32] path).length ≠ 2 * KeyLen →
        webRead (requestURI path query) ex = (.notFound, [])) := by
  intro h
  have h2 := h [47, 120] (some (List.replicate 126 97)) (fun _ => true)
    (by decide)
  exact absurd h2 (by decide)

/-- C9 amended: when the trimmed RequestURI (path plus any query
string) has length different from 2·KeyLen = 128, the handler answers
404 and queries no key in the store. -/
theorem webRead_uri_length_gate (uri : Bytes) (ex : Bytes → Bool)
    (h : (goTrim [47, 32] uri).length ≠ 2 * KeyLen) :
    webRead uri ex = (.notFound, []) := by
  unfold webRead
  simp [h]

/-- Witness for the amended 404 gate: GET /abc. -/
theorem webRead_uri_length_gate_witness :
    webRead [47, 97, 98, 99] (fun _ => true) = (.notFound, []) :=
  webRead_uri_length_gate [47, 97, 98, 99] (fun _ => true) (by decide)

/-! ## Concurrent Read: a step relation over the store

Each reader executes one Item.Read call on the saved record; its state
between atomic store commands is an `RState`.  Decryption of the
ciphertext written by Save succeeds (codec_roundtrip), so a successful
content read delivers the plaintext. -/

/-- Program counter of one reader, carrying the observed HINCRBY
result t once past the decrement. -/
inductive RState where
  | start
  | repairExists (t : Int)
  | repairDel (t : Int)
  | afterIncr (t : Int)
  | finalDel (t : Int) (c : Bytes)
  | doneEmpty (t : Int)
  | doneErr (t : Int)
  | doneDelivered (t : Int)
deriving DecidableEq

/-- One atomic store interaction of a reader executing Item.Read. -/
inductive RTrans : Store → RState → Store → RState → Prop where
  | incrNeg (s s' : Store) (t : Int) (h : hincrby s = (t, s'))
      (hn : t < 0) : RTrans s .start s' (.repairExists t)
  | incrPos (s s' : Store) (t : Int) (h : hincrby s = (t, s'))
      (hn : 0 ≤ t) : RTrans s .start s' (.afterIncr t)
  | rexistsT (s : Store) (t : Int) (h : hexistsContent s = true) :
      RTrans s (.repairExists t) s (.doneEmpty t)
  | rexistsF (s : Store) (t : Int) (h : hexistsContent s = false) :
      RTrans s (.repairExists t) s (.repairDel t)
  | rdel (s s' : Store) (b : Bool) (t : Int) (h : del s = (b, s')) :
      RTrans s (.repairDel t) s' (.doneEmpty t)
  | hgetNone (s : Store) (t : Int) (h : hgetContent s = none) :
      RTrans s (.afterIncr t) s (.doneErr t)
  | hgetZero (s : Store) (t : Int) (c : Bytes)
      (h : hgetContent s = some c) (h0 : t = 0) :
      RTrans s (.afterIncr t) s (.finalDel t c)
  | hgetPos (s : Store) (t : Int) (c : Bytes)
      (h : hgetContent s = some c) (h0 : t ≠ 0) :
      RTrans s (.afterIncr t) s (.doneDelivered t)
  | fdelT (s s' : Store) (t : Int) (c : Bytes) (h : del s = (true, s')) :
      RTrans s (.finalDel t c) s' (.doneDelivered t)
  | fdelF (s s' : Store) (t : Int) (c : Bytes) (h : del s = (false, s')) :
      RTrans s (.finalDel t c) s' (.doneErr t)

/-- Configurations: single-key store state plus the multiset of reader
states. -/
abbrev Cfg := Store × Multiset RState

/-- Interleaving semantics: some reader takes its next atomic step. -/
inductive Step : Cfg → Cfg → Prop where
  | mk {s s' : Store} {r r' : RState} {m : Multiset RState}
      (h : RTrans s r s' r') : Step (s, r ::ₘ m) (s', r' ::ₘ m)

/-- Reachability by interleaved reader steps. -/
def Reach : Cfg → Cfg → Prop := Relation.ReflTransGen Step

/-- Initial configuration: the record saved with ciphertext ct and
times = T, and n readers each about to perform one Read call. -/
def initCfg (T : Nat) (ct : Bytes) (n : Nat) : Cfg :=
  (some ⟨some ct, (T : Int)⟩, Multiset.replicate n RState.start)

/-- Reader is past its HINCRBY. -/
def pastIncr : RState → Bool
  | .start => false
  | _ => true

/-- Observed HINCRBY result. -/
def obs : RState → Option Int
  | .start => none
  | .repairExists t => some t
  | .repairDel t => some t
  | .afterIncr t => some t
  | .finalDel t _ => some t
  | .doneEmpty t => some t
  | .doneErr t => some t
  | .doneDelivered t => some t

/-- Observed a non-negative counter. -/
def nonnegObs (r : RState) : Bool :=
  match obs r with
  | some t => decide (0 ≤ t)
  | none => false

/-- Observed exactly zero. -/
def zeroObs (r : RState) : Bool :=
  match obs r with
  | some t => decide (t = 0)
  | none => false

/-- Finished delivering with counter zero: this reader performed the
final DEL of the live record. -/
def zeroDone : RState → Bool
  | .doneDelivered t => decide (t = 0)
  | _ => false

/-- A reader that observed zero but sits in a state the zero observer
can never reach. -/
def zeroBad (r : RState) : Bool :=
  zeroObs r && (match r with
    | .repairExists _ => true
    | .repairDel _ => true
    | .doneEmpty _ => true
    | .doneErr _ => true
    | _ => false)

/-- A finalDel state with a non-zero counter (unreachable). -/
def badFinal : RState → Bool
  | .finalDel t _ => decide (t ≠ 0)
  | _ => false

/-- A delivery-track state carrying a negative counter (unreachable). -/
def negTrack : RState → Bool
  | .afterIncr t => decide (t < 0)
  | .finalDel t _ => decide (t < 0)
  | .doneDelivered t => decide (t < 0)
  | _ => false

/-- About to issue the repair DEL. -/
def isRepairDel : RState → Bool
  | .repairDel _ => true
  | _ => false

/-- Returned (true, plaintext). -/
def deliveredB : RState → Bool
  | .doneDelivered _ => true
  | _ => false

/-- The Read call has returned. -/
def isDone : RState → Bool
  | .doneEmpty _ => true
  | .doneErr _ => true
  | .doneDelivered _ => true
  | _ => false

/-- Number of readers in states satisfying p. -/
def cnt (p : RState → Bool) (m : Multiset RState) : Nat :=
  Multiset.countP (fun r => p r = true) m

theorem cnt_cons (p : RState → Bool) (r : RState) (m : Multiset RState) :
    cnt p (r ::ₘ m) = cnt p m + (if p r = true then 1 else 0) :=
  Multiset.countP_cons _ r m

theorem cnt_eq_zero (p : RState → Bool) (m : Multiset RState) :
    cnt p m = 0 ↔ ∀ r ∈ m, ¬ p r = true := Multiset.countP_eq_zero

theorem cnt_pos (p : RState → Bool) (m : Multiset RState) :
    0 < cnt p m ↔ ∃ r ∈ m, p r = true := Multiset.countP_pos

theorem cnt_mono (p q : RState → Bool) (m : Multiset RState)
    (h : ∀ r ∈ m, p r = true → q r = true) : cnt p m ≤ cnt q m := by
  induction m using Multiset.induction_on with
  | empty => simp [cnt]
  | cons r m ih =>
    rw [cnt_cons, cnt_cons]
    have hm := ih (fun x hx hpx => h x (Multiset.mem_cons_of_mem hx) hpx)
    by_cases hp : p r = true
    · rw [if_pos hp, if_pos (h r (Multiset.mem_cons_self r m) hp)]
      omega
    · rw [if_neg hp]
      split <;> omega

theorem cnt_le_card (p : RState → Bool) (m : Multiset RState) :
    cnt p m ≤ Multiset.card m := Multiset.countP_le_card _ m

theorem cnt_eq_card (p : RState → Bool) (m : Multiset RState)
    (h : ∀ r ∈ m, p r = true) : cnt p m = Multiset.card m :=
  Multiset.countP_eq_card.mpr h

theorem cnt_replicate_start (p : RState → Bool) (n : Nat)
    (h : p .start = false) :
    cnt p (Multiset.replicate n RState.start) = 0 := by
  rw [cnt, Multiset.countP_eq_zero]
  intro r hr
  rw [Multiset.eq_of_mem_replicate hr, h]
  simp

theorem zeroDone_zeroObs (r : RState) (h : zeroDone r = true) :
    zeroObs r = true := by
  cases r <;> simp_all [zeroDone, zeroObs, obs]

/-- Shape of the store at the single key: absent, a phantom hash
(content-less, negative counter), or the live record whose counter is
T minus the number of performed decrements. -/
def StoreShape (T : Nat) (ct : Bytes) (s : Store) (d : Nat) : Prop :=
  match s with
  | none => True
  | some h =>
    match h.content with
    | some c => c = ct ∧ h.times = (T : Int) - d
    | none => h.times < 0

theorem storeShape_cases {T : Nat} {ct : Bytes} {s : Store} {d : Nat}
    (h : StoreShape T ct s d) :
    s = none ∨ (∃ τ, s = some ⟨none, τ⟩ ∧ τ < 0) ∨
      s = some ⟨some ct, (T : Int) - d⟩ := by
  match s with
  | none => exact Or.inl rfl
  | some ⟨none, τ⟩ => exact Or.inr (Or.inl ⟨τ, rfl, h⟩)
  | some ⟨some c, τ⟩ =>
    obtain ⟨h1, h2⟩ := h
    subst h1
    subst h2
    exact Or.inr (Or.inr rfl)

/-- The inductive invariant of the concurrent Read system. -/
def Inv (T : Nat) (ct : Bytes) (s : Store) (m : Multiset RState) : Prop :=
  StoreShape T ct s (cnt pastIncr m) ∧
  (hexistsContent s = true ↔ cnt zeroDone m = 0) ∧
  cnt nonnegObs m = min (cnt pastIncr m) T ∧
  cnt zeroObs m = (if T ≤ cnt pastIncr m then 1 else 0) ∧
  cnt zeroBad m = 0 ∧
  cnt badFinal m = 0 ∧
  cnt negTrack m = 0 ∧
  (hexistsContent s = true → cnt isRepairDel m = 0)

theorem Inv_init (T : Nat) (ct : Bytes) (n : Nat) (hT : 1 ≤ T) :
    Inv T ct (initCfg T ct n).1 (initCfg T ct n).2 := by
  unfold Inv initCfg StoreShape
  rw [cnt_replicate_start pastIncr n rfl,
    cnt_replicate_start zeroDone n rfl,
    cnt_replicate_start nonnegObs n rfl,
    cnt_replicate_start zeroObs n rfl,
    cnt_replicate_start zeroBad n rfl,
    cnt_replicate_start badFinal n rfl,
    cnt_replicate_start negTrack n rfl,
    cnt_replicate_start isRepairDel n rfl]
  refine ⟨⟨rfl, by simp⟩, by simp [hexistsContent], by omega,
    by rw [if_neg (by omega)], rfl, rfl, rfl, fun _ => rfl⟩

theorem cnt_zeroDone_le_zeroObs (m : Multiset RState) :
    cnt zeroDone m ≤ cnt zeroObs m :=
  cnt_mono zeroDone zeroObs m (fun r _ h => zeroDone_zeroObs r h)

theorem hgetContent_none_hexists {s : Store} (h : hgetContent s = none) :
    hexistsContent s = false := by
  cases s with
  | none => rfl
  | some h0 =>
    simp [hgetContent] at h
    simp [hexistsContent, h]


theorem Inv_step (T : Nat) (ct : Bytes) (_hT : 1 ≤ T) (s s' : Store)
    (r r' : RState) (m : Multiset RState) (htr : RTrans s r s' r')
    (hinv : Inv T ct s (r ::ₘ m)) : Inv T ct s' (r' ::ₘ m) := by
  obtain ⟨hsh, hli, hnn, hzo, hzb, hbf, hnt, hrd⟩ := hinv
  cases htr
  case incrNeg =>
    rename_i t hn h
    simp only [cnt_cons, pastIncr, nonnegObs, zeroObs, zeroDone, zeroBad, badFinal, negTrack, isRepairDel, obs, Bool.and_true, Bool.and_false, Bool.false_and, decide_eq_true_eq, Bool.false_eq_true, if_false, if_true, add_zero] at hsh hli hnn hzo hzb hbf hnt hrd
    have hge : ¬ (0 : Int) ≤ t := by omega
    have hz0 : ¬ t = 0 := by omega
    unfold Inv
    simp only [cnt_cons, pastIncr, nonnegObs, zeroObs, zeroDone, zeroBad, badFinal, negTrack, isRepairDel, obs, Bool.and_true, Bool.and_false, Bool.false_and, decide_eq_true_eq, Bool.false_eq_true, if_false, if_true, add_zero, if_neg hge, if_neg hz0]
    rcases storeShape_cases hsh with hs | ⟨τ, hs, hτ⟩ | hs
    · subst hs
      simp only [hincrby, Prod.mk.injEq] at h
      obtain ⟨h1, h2⟩ := h
      subst h2
      simp only [hexistsContent, Option.isSome_none, Bool.false_eq_true, false_iff] at hli ⊢
      have hle := cnt_zeroDone_le_zeroObs m
      have hzd : 1 ≤ cnt zeroDone m := by omega
      have hTd : T ≤ cnt pastIncr m := by
        by_cases hc : T ≤ cnt pastIncr m
        · exact hc
        · rw [if_neg hc] at hzo
          omega
      refine ⟨by simp [StoreShape], hli, ?_, ?_, hzb, hbf, hnt, fun h8 => absurd h8 (by simp)⟩
      · rw [hnn]
        omega
      · rw [hzo, if_pos hTd, if_pos (by omega)]
    · subst hs
      simp only [hincrby, Prod.mk.injEq] at h
      obtain ⟨h1, h2⟩ := h
      subst h2
      simp only [hexistsContent, Option.isSome_none, Bool.false_eq_true, false_iff] at hli ⊢
      have hle := cnt_zeroDone_le_zeroObs m
      have hzd : 1 ≤ cnt zeroDone m := by omega
      have hTd : T ≤ cnt pastIncr m := by
        by_cases hc : T ≤ cnt pastIncr m
        · exact hc
        · rw [if_neg hc] at hzo
          omega
      refine ⟨by simp only [StoreShape]; omega, hli, ?_, ?_, hzb, hbf, hnt, fun h8 => absurd h8 (by simp)⟩
      · rw [hnn]
        omega
      · rw [hzo, if_pos hTd, if_pos (by omega)]
    · subst hs
      simp only [hincrby, Prod.mk.injEq] at h
      obtain ⟨h1, h2⟩ := h
      subst h2
      simp only [hexistsContent, Option.isSome_some] at hli hrd ⊢
      have hTd : T ≤ cnt pastIncr m := by omega
      refine ⟨⟨rfl, by push_cast; ring⟩, hli, ?_, ?_, hzb, hbf, hnt, hrd⟩
      · rw [hnn]
        omega
      · rw [hzo, if_pos hTd, if_pos (by omega)]
  case incrPos =>
    rename_i t hn h
    simp only [cnt_cons, pastIncr, nonnegObs, zeroObs, zeroDone, zeroBad, badFinal, negTrack, isRepairDel, obs, Bool.and_true, Bool.and_false, Bool.false_and, decide_eq_true_eq, Bool.false_eq_true, if_false, if_true, add_zero] at hsh hli hnn hzo hzb hbf hnt hrd
    unfold Inv
    simp only [cnt_cons, pastIncr, nonnegObs, zeroObs, zeroDone, zeroBad, badFinal, negTrack, isRepairDel, obs, Bool.and_true, Bool.and_false, Bool.false_and, decide_eq_true_eq, Bool.false_eq_true, if_false, if_true, add_zero]
    rcases storeShape_cases hsh with hs | ⟨τ, hs, hτ⟩ | hs
    · subst hs
      simp only [hincrby, Prod.mk.injEq] at h
      omega
    · subst hs
      simp only [hincrby, Prod.mk.injEq] at h
      omega
    · subst hs
      simp only [hincrby, Prod.mk.injEq] at h
      obtain ⟨h1, h2⟩ := h
      subst h2
      simp only [hexistsContent, Option.isSome_some] at hli hrd ⊢
      have hdT : cnt pastIncr m + 1 ≤ T := by omega
      refine ⟨⟨rfl, by push_cast; ring⟩, hli, ?_, ?_, hzb, hbf, ?_, hrd⟩
      · rw [if_pos hn, hnn]
        omega
      · rw [hzo]
        by_cases h0 : t = 0
        · rw [if_pos h0, if_neg (by omega), if_pos (by omega)]
        · rw [if_neg h0, if_neg (by omega), if_neg (by omega)]
      · rw [if_neg (by omega)]
        omega
  case rexistsT =>
    rename_i t h
    simp only [cnt_cons, pastIncr, nonnegObs, zeroObs, zeroDone, zeroBad, badFinal, negTrack, isRepairDel, obs, Bool.and_true, Bool.and_false, decide_eq_true_eq, Bool.false_eq_true, if_false, if_true, add_zero] at hsh hli hnn hzo hzb hbf hnt hrd
    unfold Inv
    simp only [cnt_cons, pastIncr, nonnegObs, zeroObs, zeroDone, zeroBad, badFinal, negTrack, isRepairDel, obs, Bool.and_true, Bool.and_false, decide_eq_true_eq, Bool.false_eq_true, if_false, if_true, add_zero]
    exact ⟨hsh, hli, hnn, hzo, hzb, hbf, hnt, hrd⟩
  case rexistsF =>
    rename_i t h
    simp only [cnt_cons, pastIncr, nonnegObs, zeroObs, zeroDone, zeroBad, badFinal, negTrack, isRepairDel, obs, Bool.and_true, Bool.and_false, decide_eq_true_eq, Bool.false_eq_true, if_false, if_true, add_zero] at hsh hli hnn hzo hzb hbf hnt hrd
    unfold Inv
    simp only [cnt_cons, pastIncr, nonnegObs, zeroObs, zeroDone, zeroBad, badFinal, negTrack, isRepairDel, obs, Bool.and_true, Bool.and_false, decide_eq_true_eq, Bool.false_eq_true, if_false, if_true, add_zero]
    refine ⟨hsh, hli, hnn, hzo, hzb, hbf, hnt, ?_⟩
    intro h8
    rw [h] at h8
    exact absurd h8 (by simp)
  case rdel =>
    rename_i bb t h
    have hs' : s' = none := by
      cases s with
      | none =>
        simp only [del, Prod.mk.injEq] at h
        exact h.2.symm
      | some h0 =>
        simp only [del, Prod.mk.injEq] at h
        exact h.2.symm
    subst hs'
    have hdead : hexistsContent s = false := by
      by_cases hl : hexistsContent s = true
      · have h0 := hrd hl
        rw [cnt_cons] at h0
        simp [isRepairDel] at h0
      · simp only [Bool.not_eq_true] at hl
        exact hl
    simp only [cnt_cons, pastIncr, nonnegObs, zeroObs, zeroDone, zeroBad, badFinal, negTrack, isRepairDel, obs, Bool.and_true, Bool.and_false, decide_eq_true_eq, Bool.false_eq_true, if_false, if_true, add_zero] at hsh hli hnn hzo hzb hbf hnt hrd
    rw [hdead] at hli
    simp only [Bool.false_eq_true, false_iff] at hli
    unfold Inv
    simp only [cnt_cons, pastIncr, nonnegObs, zeroObs, zeroDone, zeroBad, badFinal, negTrack, isRepairDel, obs, Bool.and_true, Bool.and_false, decide_eq_true_eq, Bool.false_eq_true, if_false, if_true, add_zero]
    simp only [hexistsContent, Bool.false_eq_true, false_iff]
    exact ⟨trivial, hli, hnn, hzo, hzb, hbf, hnt, fun h8 => absurd h8 (by simp)⟩
  case hgetNone =>
    rename_i t h
    have hdead : hexistsContent s = false := hgetContent_none_hexists h
    simp only [cnt_cons, pastIncr, nonnegObs, zeroObs, zeroDone, zeroBad, badFinal, negTrack, isRepairDel, obs, Bool.and_true, Bool.and_false, decide_eq_true_eq, Bool.false_eq_true, if_false, if_true, add_zero] at hsh hli hnn hzo hzb hbf hnt hrd
    rw [hdead] at hli hrd
    simp only [Bool.false_eq_true, false_iff] at hli
    have hzd : 1 ≤ cnt zeroDone m := by omega
    have hle := cnt_zeroDone_le_zeroObs m
    have ht0 : ¬ t = 0 := by
      intro h0
      rw [if_pos h0] at hzo
      by_cases hc : T ≤ cnt pastIncr m + 1
      · rw [if_pos hc] at hzo
        omega
      · rw [if_neg hc] at hzo
        omega
    unfold Inv
    simp only [cnt_cons, pastIncr, nonnegObs, zeroObs, zeroDone, zeroBad, badFinal, negTrack, isRepairDel, obs, Bool.and_true, Bool.and_false, decide_eq_true_eq, Bool.false_eq_true, if_false, if_true, add_zero]
    rw [hdead]
    simp only [Bool.false_eq_true, false_iff]
    refine ⟨hsh, hli, hnn, hzo, ?_, hbf, ?_, fun h8 => absurd h8 (by simp)⟩
    · rw [if_neg ht0]
      omega
    · by_cases hneg : t < 0
      · rw [if_pos hneg] at hnt
        omega
      · rw [if_neg hneg] at hnt
        omega
  case hgetZero =>
    rename_i t c2 h h0
    subst h0
    have hnz : ((0 : Int) ≠ 0) = False := by simp
    simp only [cnt_cons, pastIncr, nonnegObs, zeroObs, zeroDone, zeroBad, badFinal, negTrack, isRepairDel, obs, Bool.and_true, Bool.and_false, decide_eq_true_eq, Bool.false_eq_true, if_false, if_true, add_zero] at hsh hli hnn hzo hzb hbf hnt hrd
    unfold Inv
    simp only [cnt_cons, pastIncr, nonnegObs, zeroObs, zeroDone, zeroBad, badFinal, negTrack, isRepairDel, obs, Bool.and_true, Bool.and_false, decide_eq_true_eq, Bool.false_eq_true, if_false, if_true, add_zero, hnz]
    exact ⟨hsh, hli, hnn, hzo, hzb, hbf, hnt, hrd⟩
  case hgetPos =>
    rename_i t c2 h h0
    simp only [cnt_cons, pastIncr, nonnegObs, zeroObs, zeroDone, zeroBad, badFinal, negTrack, isRepairDel, obs, Bool.and_true, Bool.and_false, decide_eq_true_eq, Bool.false_eq_true, if_false, if_true, add_zero] at hsh hli hnn hzo hzb hbf hnt hrd
    unfold Inv
    simp only [cnt_cons, pastIncr, nonnegObs, zeroObs, zeroDone, zeroBad, badFinal, negTrack, isRepairDel, obs, Bool.and_true, Bool.and_false, decide_eq_true_eq, Bool.false_eq_true, if_false, if_true, add_zero]
    simp only [if_neg h0, add_zero] at hzo ⊢
    exact ⟨hsh, hli, hnn, hzo, hzb, hbf, hnt, hrd⟩
  case fdelT =>
    rename_i t c2 h
    have hsome : ∃ h0, s = some h0 := by
      cases s with
      | none => simp [del] at h
      | some h0 => exact ⟨h0, rfl⟩
    obtain ⟨h0s, rfl⟩ := hsome
    have hs' : s' = none := by
      simp only [del, Prod.mk.injEq] at h
      exact h.2.symm
    subst hs'
    simp only [cnt_cons, pastIncr, nonnegObs, zeroObs, zeroDone, zeroBad, badFinal, negTrack, isRepairDel, obs, Bool.and_true, Bool.and_false, decide_eq_true_eq, Bool.false_eq_true, if_false, if_true, add_zero] at hsh hli hnn hzo hzb hbf hnt hrd
    have ht0 : t = 0 := by
      by_cases hc : t ≠ 0
      · rw [if_pos hc] at hbf
        omega
      · omega
    subst ht0
    have hnz : ((0 : Int) ≠ 0) = False := by simp
    simp only [hnz, if_false, add_zero] at hbf
    unfold Inv
    simp only [cnt_cons, pastIncr, nonnegObs, zeroObs, zeroDone, zeroBad, badFinal, negTrack, isRepairDel, obs, Bool.and_true, Bool.and_false, decide_eq_true_eq, Bool.false_eq_true, if_false, if_true, add_zero, hnz]
    simp only [hexistsContent, Bool.false_eq_true, false_iff]
    refine ⟨trivial, ?_, hnn, hzo, hzb, hbf, hnt, fun h8 => absurd h8 (by simp)⟩
    omega
  case fdelF =>
    rename_i t c2 h
    exfalso
    have hsnone : s = none := by
      cases s with
      | none => rfl
      | some h0 => simp [del] at h
    subst hsnone
    simp only [cnt_cons, pastIncr, nonnegObs, zeroObs, zeroDone, zeroBad, badFinal, negTrack, isRepairDel, obs, Bool.and_true, Bool.and_false, decide_eq_true_eq, Bool.false_eq_true, if_false, if_true, add_zero] at hsh hli hnn hzo hzb hbf hnt hrd
    have ht0 : t = 0 := by
      by_cases hc : t ≠ 0
      · rw [if_pos hc] at hbf
        omega
      · omega
    subst ht0
    simp only [hexistsContent, Bool.false_eq_true, false_iff] at hli
    have hzd : 1 ≤ cnt zeroDone m := by omega
    have hle := cnt_zeroDone_le_zeroObs m
    rw [if_pos rfl] at hzo
    by_cases hc : T ≤ cnt pastIncr m + 1
    · rw [if_pos hc] at hzo
      omega
    · rw [if_neg hc] at hzo
      omega

theorem Reach_inv (T : Nat) (ct : Bytes) (n : Nat) (hT : 1 ≤ T) (c : Cfg)
    (h : Reach (initCfg T ct n) c) :
    Inv T ct c.1 c.2 ∧ Multiset.card c.2 = n := by
  induction h with
  | refl =>
    refine ⟨Inv_init T ct n hT, ?_⟩
    simp [initCfg]
  | tail hr hstep ih =>
    obtain ⟨hinv, hcard⟩ := ih
    cases hstep with
    | mk htr =>
      refine ⟨Inv_step T ct hT _ _ _ _ _ htr hinv, ?_⟩
      simpa using hcard

/-- C1: for a record saved with Times = T and any interleaving of n
Read calls, at most T calls return plaintext; and when n ≥ T and every
call has returned, exactly one reader delivered with counter zero (that
reader performed the final DEL of the live record) and Exists(key)
reports the record absent. -/
theorem read_quota (T n : Nat) (ct : Bytes) (hT : 1 ≤ T) (s : Store)
    (m : Multiset RState) (h : Reach (initCfg T ct n) (s, m)) :
    cnt deliveredB m ≤ T ∧
    (T ≤ n → (∀ r ∈ m, isDone r = true) →
      cnt zeroDone m = 1 ∧ hexistsContent s = false) := by
  obtain ⟨⟨hsh, hli, hnn, hzo, hzb, hbf, hnt, hrd⟩, hcard⟩ :=
    Reach_inv T ct n hT (s, m) h
  dsimp only at hsh hli hnn hzo hzb hbf hnt hrd hcard
  constructor
  · have hmono : cnt deliveredB m ≤ cnt nonnegObs m := by
      refine cnt_mono _ _ m (fun r hr hp => ?_)
      have hng := (cnt_eq_zero negTrack m).mp hnt r hr
      cases r
      all_goals (try (simp [deliveredB] at hp))
      rename_i t
      have hng2 : ¬ t < 0 := by
        intro hlt
        exact hng (by simp [negTrack, hlt])
      simp [nonnegObs, obs]
      omega
    omega
  · intro hTn hdone
    have hd : cnt pastIncr m = n := by
      rw [cnt_eq_card pastIncr m (fun r hr => ?_), hcard]
      have hdog := hdone r hr
      cases r <;> simp_all [isDone, pastIncr]
    have hTd : T ≤ cnt pastIncr m := by omega
    rw [if_pos hTd] at hzo
    have hle := cnt_zeroDone_le_zeroObs m
    have hex : ∃ r ∈ m, zeroObs r = true := by
      rw [← cnt_pos]
      omega
    obtain ⟨r0, hr0, hz0⟩ := hex
    have hdog := hdone r0 hr0
    have hbad := (cnt_eq_zero zeroBad m).mp hzb r0 hr0
    have hzdone : zeroDone r0 = true := by
      cases r0 with
      | start => simp [isDone] at hdog
      | repairExists t => simp [isDone] at hdog
      | repairDel t => simp [isDone] at hdog
      | afterIncr t => simp [isDone] at hdog
      | finalDel t c2 => simp [isDone] at hdog
      | doneEmpty t => exact absurd (by simp [zeroBad, hz0]) hbad
      | doneErr t => exact absurd (by simp [zeroBad, hz0]) hbad
      | doneDelivered t => simpa [zeroDone, zeroObs, obs] using hz0
    have hzd1 : 0 < cnt zeroDone m :=
      (cnt_pos zeroDone m).mpr ⟨r0, hr0, hzdone⟩
    have hzd : cnt zeroDone m = 1 := by omega
    refine ⟨hzd, ?_⟩
    cases hex2 : hexistsContent s with
    | true => exact absurd (hli.mp hex2) (by omega)
    | false => rfl

/-- Witness for the quota property: one reader consumes a record with
Times = 1; it observes counter 0, deletes the record and delivers. -/
theorem read_quota_witness :
    cnt deliveredB (RState.doneDelivered 0 ::ₘ 0) ≤ 1 ∧
    (1 ≤ 1 → (∀ r ∈ (RState.doneDelivered 0 ::ₘ (0 : Multiset RState)),
        isDone r = true) →
      cnt zeroDone (RState.doneDelivered 0 ::ₘ 0) = 1 ∧
        hexistsContent none = false) := by
  have h1 : Step (initCfg 1 [7] 1)
      ((some ⟨some [7], 0⟩ : Store), RState.afterIncr 0 ::ₘ 0) := by
    show Step ((some ⟨some [7], 1⟩ : Store), RState.start ::ₘ 0)
      ((some ⟨some [7], 0⟩ : Store), RState.afterIncr 0 ::ₘ 0)
    exact Step.mk (RTrans.incrPos (some ⟨some [7], 1⟩) (some ⟨some [7], 0⟩) 0
      (by decide) (by decide))
  have h2 : Step ((some ⟨some [7], 0⟩ : Store), RState.afterIncr 0 ::ₘ 0)
      ((some ⟨some [7], 0⟩ : Store), RState.finalDel 0 [7] ::ₘ 0) :=
    Step.mk (RTrans.hgetZero (some ⟨some [7], 0⟩) 0 [7] (by decide) rfl)
  have h3 : Step ((some ⟨some [7], 0⟩ : Store), RState.finalDel 0 [7] ::ₘ 0)
      ((none : Store), RState.doneDelivered 0 ::ₘ 0) :=
    Step.mk (RTrans.fdelT (some ⟨some [7], 0⟩) none 0 [7] (by decide))
  exact read_quota 1 1 [7] (by decide) none (RState.doneDelivered 0 ::ₘ 0)
    (Relation.ReflTransGen.tail (Relation.ReflTransGen.tail
      (Relation.ReflTransGen.tail Relation.ReflTransGen.refl h1) h2) h3)

/-! ## SHA-512 (crypto/sha512, FIPS 180-4)

64-bit words are naturals reduced mod 2^64.  The round constants are
the first 64 bits of the fractional parts of the cube roots of the
first eighty primes, computed here by integer cube root; the initial
hash values come from the square roots of the first eight primes. -/

/-- Addition mod 2^64. -/
def add64 (a b : Nat) : Nat := (a + b) % 2 ^ 64

/-- Right rotation of a 64-bit word. -/
def rotr64 (r x : Nat) : Nat := ((x >>> r) ||| (x <<< (64 - r))) % 2 ^ 64

/-- Logical right shift. -/
def shr64 (r x : Nat) : Nat := x >>> r

/-- Bitwise complement of a 64-bit word. -/
def notW (x : Nat) : Nat := x ^^^ (2 ^ 64 - 1)

/-- Σ0. -/
def bigS0 (x : Nat) : Nat := rotr64 28 x ^^^ rotr64 34 x ^^^ rotr64 39 x

/-- Σ1. -/
def bigS1 (x : Nat) : Nat := rotr64 14 x ^^^ rotr64 18 x ^^^ rotr64 41 x

/-- σ0. -/
def smS0 (x : Nat) : Nat := rotr64 1 x ^^^ rotr64 8 x ^^^ shr64 7 x

/-- σ1. -/
def smS1 (x : Nat) : Nat := rotr64 19 x ^^^ rotr64 61 x ^^^ shr64 6 x

/-- Ch. -/
def ch64 (x y z : Nat) : Nat := (x &&& y) ^^^ (notW x &&& z)

/-- Maj. -/
def maj64 (x y z : Nat) : Nat := (x &&& y) ^^^ (x &&& z) ^^^ (y &&& z)

/-- Integer cube root by binary search (fuel-bounded; 300 halvings
suffice for the 200-bit arguments used below). -/
def icbrtAux : Nat → Nat → Nat → Nat → Nat
  | 0, lo, _, _ => lo
  | f + 1, lo, hi, n =>
    if hi ≤ lo + 1 then lo
    else
      let mid := (lo + hi) / 2
      if mid ^ 3 ≤ n then icbrtAux f mid hi n else icbrtAux f lo mid n

/-- Integer cube root. -/
def icbrt (n : Nat) : Nat := icbrtAux 300 0 (n + 1) n

/-- The first eighty primes. -/
def primes80 : List Nat :=
  [2, 3, 5, 7, 11, 13, 17, 19, 23, 29, 31, 37, 41, 43, 47, 53, 59, 61, 67,
   71, 73, 79, 83, 89, 97, 101, 103, 107, 109, 113, 127, 131, 137, 139, 149,
   151, 157, 163, 167, 173, 179, 181, 191, 193, 197, 199, 211, 223, 227,
   229, 233, 239, 241, 251, 257, 263, 269, 271, 277, 281, 283, 293, 307,
   311, 313, 317, 331, 337, 347, 349, 353, 359, 367, 373, 379, 383, 389,
   397, 401, 409]

/-- SHA-512 round constants K. -/
def K512 : List Nat := primes80.map (fun p => icbrt (p * 2 ^ 192) % 2 ^ 64)

/-- First 64 bits of the fractional part of the square root of p. -/
def sqrtFrac (p : Nat) : Nat := Nat.sqrt (p * 2 ^ 128) % 2 ^ 64

/-- The eight-word hash state. -/
structure H8 where
  ha : Nat
  hb : Nat
  hc : Nat
  hd : Nat
  he : Nat
  hf : Nat
  hg : Nat
  hh : Nat

/-- Initial hash value. -/
def H0 : H8 :=
  ⟨sqrtFrac 2, sqrtFrac 3, sqrtFrac 5, sqrtFrac 7,
   sqrtFrac 11, sqrtFrac 13, sqrtFrac 17, sqrtFrac 19⟩

/-- One compression round for constant-schedule pair kw. -/
def roundStep (st : H8) (kw : Nat × Nat) : H8 :=
  let t1 := add64 st.hh (add64 (bigS1 st.he)
    (add64 (ch64 st.he st.hf st.hg) (add64 kw.1 kw.2)))
  let t2 := add64 (bigS0 st.ha) (maj64 st.ha st.hb st.hc)
  ⟨add64 t1 t2, st.ha, st.hb, st.hc, add64 st.hd t1, st.he, st.hf, st.hg⟩

/-- Big-endian 64-bit words of a block. -/
def wordsOf : Bytes → List Nat
  | b1 :: b2 :: b3 :: b4 :: b5 :: b6 :: b7 :: b8 :: rest =>
    (((((((b1 * 256 + b2) * 256 + b3) * 256 + b4) * 256 + b5) * 256 + b6) *
      256 + b7) * 256 + b8) :: wordsOf rest
  | _ => []

/-- Message-schedule extension: 64 more words from a sliding window of
the last sixteen. -/
def extendW : Nat → List Nat → List Nat
  | 0, _ => []
  | f + 1, w =>
    let nw := add64 (smS1 (w.getD 14 0))
      (add64 (w.getD 9 0) (add64 (smS0 (w.getD 1 0)) (w.getD 0 0)))
    nw :: extendW f (w.drop 1 ++ [nw])

/-- The eighty-word message schedule of one block. -/
def schedule (block : Bytes) : List Nat :=
  let w := wordsOf block
  w ++ extendW 64 w

/-- Compress one 128-byte block into the hash state. -/
def compressBlock (st : H8) (block : Bytes) : H8 :=
  let res := (K512.zip (schedule block)).foldl roundStep st
  ⟨add64 st.ha res.ha, add64 st.hb res.hb, add64 st.hc res.hc,
   add64 st.hd res.hd, add64 st.he res.he, add64 st.hf res.hf,
   add64 st.hg res.hg, add64 st.hh res.hh⟩

/-- 16-byte big-endian encoding of the bit length. -/
def be16 (x : Nat) : Bytes :=
  (List.range 16).map (fun i => x / 2 ^ (8 * (15 - i)) % 256)

/-- Padding: 0x80, zeros to 112 mod 128, then the 128-bit bit length. -/
def sha512pad (m : Bytes) : Bytes :=
  m ++ 128 :: (List.replicate ((128 - (m.length + 17) % 128) % 128) 0 ++
    be16 (8 * m.length))

/-- Split into 128-byte blocks (fuel-bounded by the total length). -/
def blocksAux : Nat → Bytes → List Bytes
  | 0, _ => []
  | _ + 1, [] => []
  | f + 1, m => m.take 128 :: blocksAux f (m.drop 128)

/-- Big-endian bytes of a 64-bit word. -/
def toBytesBE64 (x : Nat) : Bytes :=
  (List.range 8).map (fun i => x / 2 ^ (8 * (7 - i)) % 256)

/-- SHA-512 digest (64 bytes) of a byte string.  This definition
reproduces the standard digests (for example, the empty string hashes to
cf83e1357eefb8bd...327af927da3e). -/
def digestOf (st : H8) : Bytes :=
  toBytesBE64 st.ha ++ toBytesBE64 st.hb ++ toBytesBE64 st.hc ++
    toBytesBE64 st.hd ++ toBytesBE64 st.he ++ toBytesBE64 st.hf ++
    toBytesBE64 st.hg ++ toBytesBE64 st.hh

def sha512 (m : Bytes) : Bytes :=
  digestOf ((blocksAux (sha512pad m).length (sha512pad m)).foldl
    compressBlock H0)

theorem toBytesBE64_length (x : Nat) : (toBytesBE64 x).length = 8 := by
  simp [toBytesBE64]

theorem digestOf_length (st : H8) : (digestOf st).length = 64 := by
  simp [digestOf, toBytesBE64_length]

theorem sha512_length (m : Bytes) : (sha512 m).length = 64 :=
  digestOf_length _

theorem toBytesBE64_lt (x : Nat) : ∀ b ∈ toBytesBE64 x, b < 256 := by
  intro b hb
  simp only [toBytesBE64, List.mem_map, List.mem_range] at hb
  obtain ⟨i, _, rfl⟩ := hb
  exact Nat.mod_lt _ (by norm_num)

theorem digestOf_lt (st : H8) : ∀ x ∈ digestOf st, x < 256 := by
  intro x hx
  simp only [digestOf, List.mem_append] at hx
  rcases hx with ((((((h | h) | h) | h) | h) | h) | h) | h <;>
    exact toBytesBE64_lt _ _ h

theorem sha512_lt (m : Bytes) : ∀ x ∈ sha512 m, x < 256 :=
  digestOf_lt _

theorem sha512_getD_lt (m : Bytes) (i : Nat) (hi : i < 64) :
    (sha512 m).getD i 0 < 256 := by
  have hlen := sha512_length m
  have hi2 : i < (sha512 m).length := by omega
  have hx : (sha512 m).getD i 0 = (sha512 m)[i] := by
    rw [List.getD_eq_getElem?_getD, List.getElem?_eq_getElem hi2]
    rfl
  rw [hx]
  exact sha512_lt m _ (List.getElem_mem _)

theorem list_eq_of_getD {l1 l2 : Bytes} (h1 : l1.length = 64)
    (h2 : l2.length = 64) (h : ∀ i < 64, l1.getD i 0 = l2.getD i 0) :
    l1 = l2 := by
  apply List.ext_getElem (by omega)
  intro i hi1 hi2
  have h3 := h i (by omega)
  rw [List.getD_eq_getElem?_getD, List.getElem?_eq_getElem hi1] at h3
  rw [List.getD_eq_getElem?_getD, List.getElem?_eq_getElem hi2] at h3
  simpa using h3

/-! ## Password verifier (Item.hashPassword / Item.CheckPassword)

`hashPassword` fails on an empty item key and otherwise produces
`hex(SHA-512(password ++ key))`; `CheckPassword` compares that verifier
with the stored hash fetched by HGET (modelled by the `stored`
argument) using a byte-wise equality, as `hmac.Equal` does. -/

/-- Item.hashPassword: `none` models the "empty item key" error. -/
def hashPassword (password key : Bytes) : Option Bytes :=
  if key = [] then none
  else some (hexEncode (sha512 (password ++ key)))

/-- hmac.Equal on byte strings. -/
def hmacEqual (a b : Bytes) : Bool := a == b

/-- Item.CheckPassword with the HGET result supplied as `stored`. -/
def checkPassword (candidate key stored : Bytes) : Option Bool :=
  match hashPassword candidate key with
  | none => none
  | some hp => some (hmacEqual hp stored)

/-- C6: refuted as stated.  The claim quantifies over every pair of
distinct passwords, but the verifier is a 64-byte digest: by the
pigeonhole principle two distinct passwords exist whose verifiers under
key "k" coincide, so the check accepts the wrong password. -/
theorem checkPassword_distinct_refuted :
    ¬ (∀ (key right wrong : Bytes), key ≠ [] → wrong ≠ right →
        checkPassword wrong key (hexEncode (sha512 (right ++ key))) =
          some false ∧
        checkPassword right key (hexEncode (sha512 (right ++ key))) =
          some true) := by
  intro hP
  obtain ⟨a, b, hab, heq⟩ := Finite.exists_ne_map_eq_of_infinite
    (fun n : Nat => (fun i : Fin 64 =>
      (⟨(sha512 (List.replicate n 0 ++ [107])).getD i.1 0,
        sha512_getD_lt _ i.1 i.2⟩ : Fin 256)))
  have hdg : sha512 (List.replicate a 0 ++ [107]) =
      sha512 (List.replicate b 0 ++ [107]) := by
    apply list_eq_of_getD (sha512_length _) (sha512_length _)
    intro i hi
    have h3 := congrFun heq (⟨i, hi⟩ : Fin 64)
    simpa using congrArg Fin.val h3
  have hne : (List.replicate a 0 : Bytes) ≠ List.replicate b 0 := fun h0 =>
    hab (by simpa using congrArg List.length h0)
  have h1 := (hP [107] (List.replicate b 0) (List.replicate a 0)
    (by simp) hne).1
  have h2 : checkPassword (List.replicate a 0) [107]
      (hexEncode (sha512 (List.replicate b 0 ++ [107]))) = some true := by
    simp [checkPassword, hashPassword, hmacEqual, hdg]
  rw [h1] at h2
  simp at h2

/-- C6 amended: with a non-empty key, the check accepts the candidate
whose verifier was stored, and rejects every candidate whose computed
verifier differs from the stored hash — in particular any wrong
password whose digest differs from the right one's. -/
theorem checkPassword_verifier (key right wrong : Bytes) (hk : key ≠ []) :
    (∀ stored, hexEncode (sha512 (wrong ++ key)) ≠ stored →
        checkPassword wrong key stored = some false) ∧
    checkPassword right key (hexEncode (sha512 (right ++ key))) =
      some true := by
  constructor
  · intro stored hdiff
    have hb : (hexEncode (sha512 (wrong ++ key)) == stored) = false :=
      beq_eq_false_iff_ne.mpr hdiff
    simp [checkPassword, hashPassword, hk, hmacEqual, hb]
  · simp [checkPassword, hashPassword, hk, hmacEqual]

/-- C6 witness: key "k", candidate "b" against an empty stored hash
(whose length 0 differs from the 128-character verifier), and candidate
"a" against its own stored verifier. -/
theorem checkPassword_verifier_witness :
    checkPassword [98] [107] [] = some false ∧
    checkPassword [97] [107] (hexEncode (sha512 ([97] ++ [107]))) =
      some true := by
  have h := checkPassword_verifier [107] [97] [98] (by decide)
  refine ⟨h.1 [] ?_, h.2⟩
  intro h0
  have h1 := hexEncode_length (sha512 ([98] ++ [107]))
  rw [h0, sha512_length] at h1
  simp at h1
